import Mathlib

/-!
Verification of the token-sequence core of a static-analysis front end
(TokenList): a shallow embedding of the token chain, file registry,
type normalizer, AST builder/validator, structural hasher and the
function-head classifier, with proofs of the documented properties.

The repository ships only the interface header (src/lib/tokenlist.h);
every operation's behaviour is therefore modelled from the accompanying
specification, faithful to its words.
-/

set_option maxRecDepth 4000

/-- Modelled from the spec: a Token node carries its lexical value, a
source location (file index, line, column) and the classification flags
set by the type normalizer (signedness, long-ness).  The implementation
of the Token class is not part of the repository's files. -/
structure Token where
  str : String
  fileIndex : Nat
  linenr : Nat
  column : Nat
  isUnsigned : Bool := false
  isSigned : Bool := false
  isLong : Bool := false
  isLongLong : Bool := false
  deriving Repr, DecidableEq

/-- Modelled from the spec: the TokenList state, holding the owned node
chain (as the ordered list of live nodes), the file registry and the
shadow list of original file names.  The TokenList implementation is
not part of the repository's files; only tokenlist.h declares it. -/
structure TokenList where
  tokens : List Token
  files : List String
  origFiles : List String
  deriving Repr, DecidableEq

/-! ## The doubly-linked chain view

The sequence owns its nodes through front/back bounds; each node keeps
previous/next neighbour links.  We model node identity by position and
derive the link structure the chain maintains. -/

/-- A chain node: the token plus its previous/next neighbour links. -/
structure ChainNode where
  tok : Token
  prev : Option Nat
  next : Option Nat
  deriving Repr, DecidableEq

/-- This struct stores the front and back nodes of the list (the
TokensFrontBack descriptor of tokenlist.h); empty list = both null. -/
structure TokensFrontBack where
  front : Option Nat
  back : Option Nat
  deriving Repr, DecidableEq

/-- The linked nodes of a sequence: node i links back to i-1 and
forward to i+1, the ends to null. -/
def buildNodes (l : List Token) : List ChainNode :=
  l.enum.map fun p =>
    ⟨p.2, if p.1 = 0 then none else some (p.1 - 1),
      if p.1 + 1 < l.length then some (p.1 + 1) else none⟩

/-- The front/back descriptor of a sequence: null ends when empty. -/
def chainBounds (l : List Token) : TokensFrontBack :=
  if l.isEmpty then ⟨none, none⟩ else ⟨some 0, some (l.length - 1)⟩

/-- Follow one next-link. -/
def stepNext (nodes : List ChainNode) (i : Nat) : Option Nat :=
  (nodes.get? i).bind ChainNode.next

/-- Follow one previous-link. -/
def stepPrev (nodes : List ChainNode) (i : Nat) : Option Nat :=
  (nodes.get? i).bind ChainNode.prev

/-- Iterate a link-following step k times from an optional node. -/
def iterStep (f : Nat → Option Nat) : Nat → Option Nat → Option Nat
  | 0, s => s
  | k + 1, s =>
    match s with
    | none => none
    | some i => iterStep f k (f i)

/-- The chain invariant: an empty sequence has both ends null, and in a
nonempty sequence back() is reached from front() by following next-links
exactly count-1 times, and front() from back() via previous-links. -/
def chainOk (l : List Token) : Prop :=
  (l.isEmpty → chainBounds l = ⟨none, none⟩) ∧
  (¬ l.isEmpty →
    iterStep (stepNext (buildNodes l)) (l.length - 1) (chainBounds l).front =
      (chainBounds l).back ∧
    iterStep (stepPrev (buildNodes l)) (l.length - 1) (chainBounds l).back =
      (chainBounds l).front)

/-! ## Sequence mutation operations (modelled from the spec) -/

/-- Modelled from the spec: addtoken appends a new node at the tail with
the given value and location.  The implementation is not in the
repository's files. -/
def addtoken (tl : TokenList) (str : String) (lineno column fileno : Nat) :
    TokenList :=
  { tl with tokens := tl.tokens ++ [⟨str, fileno, lineno, column, false, false, false, false⟩] }

/-- Modelled from the spec: insertTokens clones n nodes starting at src
and splices the clones immediately after dest, preserving original
ordering.  The implementation is not in the repository's files. -/
def insertTokens (toks : List Token) (dest src n : Nat) : List Token :=
  toks.take (dest + 1) ++ (toks.drop src).take n ++ toks.drop (dest + 1)

/-- Modelled from the spec: copyTokens clones the inclusive range
[firstIdx, lastIdx] and splices the clones after dest; with oneLine all
clones are relocated onto dest's source line; returns the new location
of the last token copied.  The implementation is not in the
repository's files. -/
def copyTokens (toks : List Token) (dest firstIdx lastIdx : Nat)
    (oneLine : Bool) : List Token × Option Token :=
  let destLine := ((toks.get? dest).map Token.linenr).getD 0
  let srcRange := (toks.drop firstIdx).take (lastIdx + 1 - firstIdx)
  let clones :=
    if oneLine then srcRange.map fun t => { t with linenr := destLine }
    else srcRange
  (toks.take (dest + 1) ++ clones ++ toks.drop (dest + 1), clones.getLast?)

/-- Modelled from the spec: deallocateTokens frees the whole owned
chain.  The implementation is not in the repository's files. -/
def deallocateTokens (tl : TokenList) : TokenList :=
  { tl with tokens := [] }

/-- Modelled from the spec: simplifyPlatformTypes rewrites tokens naming
platform-dependent aliases (size_t) into the canonical spelling implied
by the configured bit-width: 32 bits gives unsigned long, 64 bits gives
unsigned long long.  The implementation is not in the repository's
files. -/
def simplifyPlatformTypes (bits : Nat) (toks : List Token) : List Token :=
  toks.map fun t =>
    if t.str = "size_t" then
      { t with str := "long", isUnsigned := true,
               isLong := bits == 32, isLongLong := bits == 64 }
    else t

/-! ## Chain invariant lemmas -/

theorem buildNodes_getElem? (l : List Token) (i : Nat) (hi : i < l.length) :
    (buildNodes l)[i]? =
      some ⟨l[i], if i = 0 then none else some (i - 1),
        if i + 1 < l.length then some (i + 1) else none⟩ := by
  simp only [buildNodes, List.getElem?_map, List.getElem?_enum]
  simp [List.getElem?_eq_getElem hi]

theorem stepNext_buildNodes (l : List Token) (i : Nat) (hi : i < l.length) :
    stepNext (buildNodes l) i =
      if i + 1 < l.length then some (i + 1) else none := by
  simp [stepNext, buildNodes_getElem? l i hi]

theorem stepPrev_buildNodes (l : List Token) (i : Nat) (hi : i < l.length) :
    stepPrev (buildNodes l) i =
      if i = 0 then none else some (i - 1) := by
  simp [stepPrev, buildNodes_getElem? l i hi]

theorem iterStep_next (l : List Token) (k : Nat) :
    ∀ i, i + k < l.length →
      iterStep (stepNext (buildNodes l)) k (some i) = some (i + k) := by
  induction k with
  | zero => intro i _; simp [iterStep]
  | succ k ih =>
    intro i hik
    have hi : i < l.length := by omega
    have h1 : i + 1 < l.length := by omega
    simp only [iterStep, stepNext_buildNodes l i hi, if_pos h1]
    have := ih (i + 1) (by omega)
    rw [this]
    congr 1
    omega

theorem iterStep_prev (l : List Token) (k : Nat) :
    ∀ i, k ≤ i → i < l.length →
      iterStep (stepPrev (buildNodes l)) k (some i) = some (i - k) := by
  induction k with
  | zero => intro i _ _; simp [iterStep]
  | succ k ih =>
    intro i hk hi
    have hne : i ≠ 0 := by omega
    simp only [iterStep, stepPrev_buildNodes l i hi, if_neg hne]
    have := ih (i - 1) (by omega) (by omega)
    rw [this]
    congr 1
    omega

theorem chainOk_all (l : List Token) : chainOk l := by
  constructor
  · intro he
    simp [chainBounds, he]
  · intro hne
    have hlen : 0 < l.length := by
      cases l with
      | nil => simp at hne
      | cons a as => simp
    have hb : chainBounds l = ⟨some 0, some (l.length - 1)⟩ := by
      simp only [chainBounds]
      rw [if_neg hne]
    rw [hb]
    constructor
    · have := iterStep_next l (l.length - 1) 0 (by omega)
      simpa using this
    · have := iterStep_prev l (l.length - 1) (l.length - 1) (by omega) (by omega)
      simpa using this

/-! ## File registry (C4) -/

/-- Modelled from the spec: appendFileIfNew appends the file name if it
is seen the first time, and returns its index in any case; re-adding an
existing (string-equal) path returns its existing index rather than
appending a duplicate.  The implementation is not in the repository's
files. -/
def appendFileIfNew (tl : TokenList) (fileName : String) : Nat × TokenList :=
  if fileName ∈ tl.files then (tl.files.indexOf fileName, tl)
  else (tl.files.length, { tl with files := tl.files ++ [fileName] })

/-- C4: registering a not-yet-registered path twice returns the same
index both times and grows the registry by exactly one across the two
calls; re-adding an already registered path returns its existing index
without appending a duplicate. -/
theorem appendFileIfNew_idempotent (tl : TokenList) (p : String) :
    (p ∉ tl.files →
      (appendFileIfNew tl p).1 = (appendFileIfNew (appendFileIfNew tl p).2 p).1 ∧
      ((appendFileIfNew (appendFileIfNew tl p).2 p).2).files.length =
        tl.files.length + 1) ∧
    (p ∈ tl.files →
      (appendFileIfNew tl p).1 = tl.files.indexOf p ∧
      (appendFileIfNew tl p).2 = tl) := by
  constructor
  · intro hnot
    have h1 : appendFileIfNew tl p =
        (tl.files.length, { tl with files := tl.files ++ [p] }) := by
      simp [appendFileIfNew, hnot]
    have hmem : p ∈ tl.files ++ [p] := by simp
    have h2 : appendFileIfNew { tl with files := tl.files ++ [p] } p =
        ((tl.files ++ [p]).indexOf p, { tl with files := tl.files ++ [p] }) := by
      simp [appendFileIfNew, hmem]
    rw [h1]
    simp only [h2]
    constructor
    · rw [List.indexOf_append_of_not_mem hnot]
      simp [List.indexOf_cons_self]
    · simp
  · intro hmem
    simp [appendFileIfNew, hmem]

/-- The first call on a fresh path returns index 1 here, the second call
returns the same index, and the registry grows by exactly one. -/
theorem appendFileIfNew_idempotent_witness :
    ("b.h" ∉ (TokenList.mk [] ["a.cpp"] []).files →
      (appendFileIfNew (TokenList.mk [] ["a.cpp"] []) "b.h").1 =
        (appendFileIfNew (appendFileIfNew (TokenList.mk [] ["a.cpp"] []) "b.h").2 "b.h").1 ∧
      ((appendFileIfNew (appendFileIfNew (TokenList.mk [] ["a.cpp"] []) "b.h").2 "b.h").2).files.length =
        (TokenList.mk [] ["a.cpp"] []).files.length + 1) ∧
    ("b.h" ∈ (TokenList.mk [] ["a.cpp"] []).files →
      (appendFileIfNew (TokenList.mk [] ["a.cpp"] []) "b.h").1 =
        (TokenList.mk [] ["a.cpp"] []).files.indexOf "b.h" ∧
      (appendFileIfNew (TokenList.mk [] ["a.cpp"] []) "b.h").2 =
        TokenList.mk [] ["a.cpp"] []) :=
  appendFileIfNew_idempotent (TokenList.mk [] ["a.cpp"] []) "b.h"

/-! ## Structural hasher (C3) -/

/-- One mixing step of the structural hash, over 64-bit machine words. -/
def hashCombine (seed h : Nat) : Nat :=
  (seed ^^^ (h + 2654435769 + seed * 64 + seed / 4)) % 2 ^ 64

/-- A 64-bit hash of a token's textual value. -/
def strHash (s : String) : Nat :=
  s.data.foldl (fun a c => (a * 131 + c.toNat) % 2 ^ 64) 5381

/-- The per-node fingerprint: value, relevant type flags, and the node's
structural position in the sequence. -/
def tokenHash (idx : Nat) (t : Token) : Nat :=
  (strHash t.str + 2 * cond t.isUnsigned 1 0 + 3 * cond t.isSigned 1 0 +
    5 * cond t.isLong 1 0 + 7 * cond t.isLongLong 1 0 + 31 * idx) % 2 ^ 64

/-- Modelled from the spec: calculateHash produces a single fixed-width
fingerprint derived from every node's value, relevant type flags, and
structural position, combined via a stable mixing function.  The
implementation is not in the repository's files. -/
def calculateHash (tl : TokenList) : Nat :=
  tl.tokens.enum.foldl (fun seed p => hashCombine seed (tokenHash p.1 p.2)) 0

/-- The fields of a node that the structural hash reads: its lexical
value and its type flags (location is not hashed). -/
def hashView (t : Token) : String × Bool × Bool × Bool × Bool :=
  (t.str, t.isUnsigned, t.isSigned, t.isLong, t.isLongLong)

theorem tokenHash_congr (idx : Nat) (t u : Token)
    (h : hashView t = hashView u) : tokenHash idx t = tokenHash idx u := by
  simp only [hashView, Prod.mk.injEq] at h
  simp [tokenHash, h.1, h.2.1, h.2.2.1, h.2.2.2.1, h.2.2.2.2]

theorem foldl_hash_congr :
    ∀ (l1 l2 : List Token) (k seed : Nat),
      l1.map hashView = l2.map hashView →
      (l1.enumFrom k).foldl (fun seed p => hashCombine seed (tokenHash p.1 p.2)) seed =
      (l2.enumFrom k).foldl (fun seed p => hashCombine seed (tokenHash p.1 p.2)) seed := by
  intro l1
  induction l1 with
  | nil =>
    intro l2 k seed h
    cases l2 with
    | nil => rfl
    | cons b bs => simp at h
  | cons a as ih =>
    intro l2 k seed h
    cases l2 with
    | nil => simp at h
    | cons b bs =>
      simp only [List.map_cons, List.cons.injEq] at h
      simp only [List.enumFrom, List.foldl_cons]
      rw [tokenHash_congr k a b h.1]
      exact ih bs (k + 1) _ h.2

/-- C3: calculateHash is a pure function of node values, type flags and
structural order: any two sequences whose nodes are pair-wise identical
in those fields (locations may differ arbitrarily) hash identically. -/
theorem calculateHash_pure (tl1 tl2 : TokenList)
    (h : tl1.tokens.map hashView = tl2.tokens.map hashView) :
    calculateHash tl1 = calculateHash tl2 := by
  simp only [calculateHash, List.enum]
  exact foldl_hash_congr tl1.tokens tl2.tokens 0 0 h

/-- Two independently constructed one-token sequences with the same
lexical content but different source locations hash identically. -/
theorem calculateHash_pure_witness :
    (TokenList.mk [⟨"int", 0, 1, 1, false, false, false, false⟩] [] []).tokens.map hashView =
      (TokenList.mk [⟨"int", 2, 9, 4, false, false, false, false⟩] [] []).tokens.map hashView ∧
    calculateHash (TokenList.mk [⟨"int", 0, 1, 1, false, false, false, false⟩] [] []) =
      calculateHash (TokenList.mk [⟨"int", 2, 9, 4, false, false, false, false⟩] [] []) :=
  ⟨rfl, calculateHash_pure _ _ rfl⟩

/-! ## Function-head classifier (C8) -/

/-- Find the position of the parenthesis closing the currently open one:
pos names the absolute position of the list head, depth the number of
extra open parentheses seen so far. -/
def matchParen : List Token → Nat → Nat → Option Nat
  | [], _, _ => none
  | t :: rest, pos, depth =>
    if t.str = "(" then matchParen rest (pos + 1) (depth + 1)
    else if t.str = ")" then
      if depth = 0 then some pos else matchParen rest (pos + 1) (depth - 1)
    else matchParen rest (pos + 1) depth

/-- Modelled from the spec: isFunctionHead, given a parenthesis token,
performs bounded lookahead to decide whether it opens a function
declarator whose matching close is immediately followed by the literal
text endsWith; it returns the matching node on success, null otherwise.
The implementation is not in the repository's files. -/
def isFunctionHead (toks : List Token) (i : Nat) (endsWith : String) :
    Option Nat :=
  match toks.get? i with
  | none => none
  | some t =>
    if t.str = "(" then
      match matchParen (toks.drop (i + 1)) (i + 1) 0 with
      | none => none
      | some c =>
        match toks.get? (c + 1) with
        | none => none
        | some nxt => if nxt.str = endsWith then some c else none
    else none

/-- A token with the given text, at a fixed dummy location. -/
def tkn (s : String) : Token := ⟨s, 0, 1, 0, false, false, false, false⟩

/-- The token sequence of the declarator void f() const. -/
def declConstSeq : List Token :=
  [tkn "void", tkn "f", tkn "(", tkn ")", tkn "const"]

/-- C8: on the open parenthesis of void f() const, isFunctionHead with
endsWith const returns the matching close parenthesis (position 3), and
with endsWith override it returns null: absence of a match is reported
by the null sentinel, never by an error. -/
theorem isFunctionHead_declConst :
    isFunctionHead declConstSeq 2 "const" = some 3 ∧
    isFunctionHead declConstSeq 2 "override" = none := by
  constructor <;> rfl

/-! ## Type normalizer (C5, C6) -/

/-- The standard type-specifier keywords: signedness, length modifiers
and base types. -/
def stdSpecStrs : List String :=
  ["signed", "unsigned", "long", "short", "int", "char", "double", "float"]

/-- Whether a token is a standard type-specifier keyword. -/
def isStdTypeSpecifier (t : Token) : Bool := stdSpecStrs.contains t.str

/-- The value of the single node a specifier run collapses to. -/
def runBaseStr (strs : List String) : String :=
  if strs.contains "double" then "double"
  else if strs.contains "float" then "float"
  else if strs.contains "char" then "char"
  else if strs.contains "short" then "short"
  else if strs.count "long" ≠ 0 then "long"
  else "int"

/-- Collapse a contiguous specifier run into its one retained node: the
composite flags are accumulated from the run (keeping any flags already
carried), and the retained node keeps the first node's location. -/
def collapseRun (first : Token) (rest : List Token) : Token :=
  let run := first :: rest
  let strs := run.map Token.str
  let countLong := strs.count "long"
  { first with
    str := runBaseStr strs,
    isUnsigned := strs.contains "unsigned" || run.any Token.isUnsigned,
    isSigned := strs.contains "signed" || run.any Token.isSigned,
    isLong := decide (1 ≤ countLong) || run.any Token.isLong,
    isLongLong := decide (2 ≤ countLong) || run.any Token.isLongLong }

/-- Modelled from the spec: simplifyStdType scans for contiguous runs of
standard type-specifier keywords and collapses each run into one node
carrying composite flags, removing the now-redundant modifier nodes
while preserving the location of the retained node.  The implementation
is not in the repository's files. -/
def simplifyStdTypeList : List Token → List Token
  | [] => []
  | t :: rest =>
    if isStdTypeSpecifier t then
      collapseRun t (rest.takeWhile isStdTypeSpecifier) ::
        simplifyStdTypeList (rest.dropWhile isStdTypeSpecifier)
    else t :: simplifyStdTypeList rest
termination_by l => l.length
decreasing_by
  · have := (List.dropWhile_sublist isStdTypeSpecifier (l := rest)).length_le
    simp only [List.length_cons]
    omega
  · simp only [List.length_cons]
    omega

/-- The TokenList-level simplifyStdType pass. -/
def simplifyStdType (tl : TokenList) : TokenList :=
  { tl with tokens := simplifyStdTypeList tl.tokens }

theorem takeWhile_eq_nil_of_head (p : Token → Bool) (l : List Token)
    (h : ∀ x, l.head? = some x → p x = false) : l.takeWhile p = [] := by
  cases l with
  | nil => rfl
  | cons a as =>
    have := h a (by simp)
    simp [List.takeWhile_cons, this]

theorem dropWhile_eq_self_of_head (p : Token → Bool) (l : List Token)
    (h : ∀ x, l.head? = some x → p x = false) : l.dropWhile p = l := by
  cases l with
  | nil => rfl
  | cons a as =>
    have := h a (by simp)
    simp [List.dropWhile_cons, this]

/-- C5: simplifyStdType collapses the contiguous modifier run
unsigned long long int into exactly one node carrying the flags
unsigned, long and long-long, located at the original first node's
location, with the now-redundant modifier nodes removed from the
sequence. -/
theorem simplifyStdType_unsigned_long_long_int
    (pre suf : List Token) (u t1 t2 ti : Token)
    (hu : u.str = "unsigned") (h1 : t1.str = "long") (h2 : t2.str = "long")
    (hi : ti.str = "int")
    (hpre : ∀ t ∈ pre, isStdTypeSpecifier t = false)
    (hsuf : ∀ t, suf.head? = some t → isStdTypeSpecifier t = false) :
    simplifyStdTypeList (pre ++ u :: t1 :: t2 :: ti :: suf) =
      pre ++ collapseRun u [t1, t2, ti] :: simplifyStdTypeList suf ∧
    (collapseRun u [t1, t2, ti]).isUnsigned = true ∧
    (collapseRun u [t1, t2, ti]).isLong = true ∧
    (collapseRun u [t1, t2, ti]).isLongLong = true ∧
    (collapseRun u [t1, t2, ti]).fileIndex = u.fileIndex ∧
    (collapseRun u [t1, t2, ti]).linenr = u.linenr ∧
    (collapseRun u [t1, t2, ti]).column = u.column := by
  refine ⟨?_, ?_, ?_, ?_, rfl, rfl, rfl⟩
  · induction pre with
    | nil =>
      have hspec : isStdTypeSpecifier u = true := by
        simp [isStdTypeSpecifier, stdSpecStrs, hu]
      have hs1 : isStdTypeSpecifier t1 = true := by
        simp [isStdTypeSpecifier, stdSpecStrs, h1]
      have hs2 : isStdTypeSpecifier t2 = true := by
        simp [isStdTypeSpecifier, stdSpecStrs, h2]
      have hsi : isStdTypeSpecifier ti = true := by
        simp [isStdTypeSpecifier, stdSpecStrs, hi]
      have htw : (t1 :: t2 :: ti :: suf).takeWhile isStdTypeSpecifier =
          [t1, t2, ti] := by
        simp [List.takeWhile_cons, hs1, hs2, hsi,
          takeWhile_eq_nil_of_head _ suf hsuf]
      have hdw : (t1 :: t2 :: ti :: suf).dropWhile isStdTypeSpecifier = suf := by
        simp [List.dropWhile_cons, hs1, hs2, hsi,
          dropWhile_eq_self_of_head _ suf hsuf]
      rw [List.nil_append, simplifyStdTypeList, if_pos hspec, htw, hdw]
      rfl
    | cons q pre' ih =>
      have hq : isStdTypeSpecifier q = false := hpre q (by simp)
      have ih' := ih (fun t ht => hpre t (by simp [ht]))
      rw [List.cons_append, simplifyStdTypeList, if_neg (by simp [hq]), ih']
      rfl
  · simp [collapseRun, hu, h1, h2, hi]
  · simp [collapseRun, hu, h1, h2, hi]
  · simp [collapseRun, hu, h1, h2, hi]

/-- On the concrete sequence unsigned long long int ; the run collapses
to one node flagged unsigned, long and long-long at the location of the
first node. -/
theorem simplifyStdType_unsigned_long_long_int_witness :
    simplifyStdTypeList ([] ++ tkn "unsigned" :: tkn "long" :: tkn "long" ::
        tkn "int" :: [tkn ";"]) =
      [] ++ collapseRun (tkn "unsigned") [tkn "long", tkn "long", tkn "int"] ::
        simplifyStdTypeList [tkn ";"] ∧
    (collapseRun (tkn "unsigned") [tkn "long", tkn "long", tkn "int"]).isUnsigned = true ∧
    (collapseRun (tkn "unsigned") [tkn "long", tkn "long", tkn "int"]).isLong = true ∧
    (collapseRun (tkn "unsigned") [tkn "long", tkn "long", tkn "int"]).isLongLong = true ∧
    (collapseRun (tkn "unsigned") [tkn "long", tkn "long", tkn "int"]).fileIndex =
      (tkn "unsigned").fileIndex ∧
    (collapseRun (tkn "unsigned") [tkn "long", tkn "long", tkn "int"]).linenr =
      (tkn "unsigned").linenr ∧
    (collapseRun (tkn "unsigned") [tkn "long", tkn "long", tkn "int"]).column =
      (tkn "unsigned").column :=
  simplifyStdType_unsigned_long_long_int [] [tkn ";"] (tkn "unsigned")
    (tkn "long") (tkn "long") (tkn "int") rfl rfl rfl rfl
    (by intro t ht; simp at ht)
    (by intro t ht; rw [List.head?_cons] at ht; cases ht; decide)

/-- The shape of a node retained by a collapse: its value is one of the
base spellings, and a retained long spelling carries the long flag. -/
def collapsedOk (c : Token) : Prop :=
  c.str ∈ ["double", "float", "char", "short", "long", "int"] ∧
  (c.str = "long" → c.isLong = true)

theorem collapseRun_collapsedOk (t : Token) (rest : List Token) :
    collapsedOk (collapseRun t rest) := by
  constructor
  · show runBaseStr _ ∈ _
    unfold runBaseStr
    split_ifs <;> simp
  · intro h
    have hcount : ((t :: rest).map Token.str).count "long" ≠ 0 := by
      revert h
      show runBaseStr _ = "long" → _
      unfold runBaseStr
      split_ifs with hd hf hc hs hl
      · intro h; exact absurd h (by decide)
      · intro h; exact absurd h (by decide)
      · intro h; exact absurd h (by decide)
      · intro h; exact absurd h (by decide)
      · intro _; exact hl
      · intro h; exact absurd h (by decide)
    show (decide (1 ≤ _) || _) = true
    have : 1 ≤ ((t :: rest).map Token.str).count "long" := by omega
    rw [decide_eq_true this, Bool.true_or]

theorem collapseRun_fix (c : Token) (hc : collapsedOk c) :
    collapseRun c [] = c := by
  obtain ⟨⟨s, fi, ln, col, un, sg, lo, ll⟩, rfl⟩ :
      ∃ d : Token, d = c := ⟨c, rfl⟩
  obtain ⟨hmem, hlong⟩ := hc
  simp only [Token.mk.injEq] at *
  fin_cases hmem <;>
    simp_all [collapseRun, runBaseStr, List.count_cons, Token.mk.injEq]

theorem head?_dropWhile_spec (l : List Token) :
    ∀ x, (l.dropWhile isStdTypeSpecifier).head? = some x →
      isStdTypeSpecifier x = false := by
  induction l with
  | nil => intro x hx; simp at hx
  | cons a as ih =>
    intro x hx
    by_cases h : isStdTypeSpecifier a
    · rw [List.dropWhile_cons, if_pos h] at hx
      exact ih x hx
    · rw [List.dropWhile_cons, if_neg h, List.head?_cons] at hx
      cases hx
      simpa using h

theorem simplifyStdTypeList_head (l : List Token)
    (h : ∀ x, l.head? = some x → isStdTypeSpecifier x = false) :
    ∀ x, (simplifyStdTypeList l).head? = some x →
      isStdTypeSpecifier x = false := by
  cases l with
  | nil => intro x hx; simp [simplifyStdTypeList] at hx
  | cons a as =>
    intro x hx
    have ha : isStdTypeSpecifier a = false := h a (by simp)
    rw [simplifyStdTypeList, if_neg (by simp [ha]), List.head?_cons] at hx
    cases hx
    exact ha

theorem isStdTypeSpecifier_collapseRun (t : Token) (rest : List Token) :
    isStdTypeSpecifier (collapseRun t rest) = true := by
  have := (collapseRun_collapsedOk t rest).1
  simp only [List.mem_cons, List.not_mem_nil, or_false] at this
  unfold isStdTypeSpecifier
  rcases this with h | h | h | h | h | h <;> simp [h, stdSpecStrs]

theorem simplifyStdTypeList_idem :
    ∀ l : List Token, simplifyStdTypeList (simplifyStdTypeList l) =
      simplifyStdTypeList l
  | [] => by simp [simplifyStdTypeList]
  | t :: rest => by
    by_cases h : isStdTypeSpecifier t
    · have hrec := simplifyStdTypeList_idem (rest.dropWhile isStdTypeSpecifier)
      rw [simplifyStdTypeList, if_pos h]
      have hhead := simplifyStdTypeList_head (rest.dropWhile isStdTypeSpecifier)
        (head?_dropWhile_spec rest)
      rw [simplifyStdTypeList,
        if_pos (isStdTypeSpecifier_collapseRun t (rest.takeWhile isStdTypeSpecifier)),
        takeWhile_eq_nil_of_head _ _ hhead,
        dropWhile_eq_self_of_head _ _ hhead,
        collapseRun_fix _ (collapseRun_collapsedOk t _), hrec]
    · have hrec := simplifyStdTypeList_idem rest
      rw [simplifyStdTypeList, if_neg h]
      rw [simplifyStdTypeList, if_neg h, hrec]
termination_by l => l.length
decreasing_by
  · have := (List.dropWhile_sublist isStdTypeSpecifier (l := rest)).length_le
    simp only [List.length_cons]
    omega
  · simp only [List.length_cons]
    omega

/-- C6: simplifyStdType is idempotent: a second application after a
first one leaves the sequence unchanged. -/
theorem simplifyStdType_idem (tl : TokenList) :
    simplifyStdType (simplifyStdType tl) = simplifyStdType tl := by
  simp [simplifyStdType, simplifyStdTypeList_idem]

/-! ## Copying a token range (C7) -/

/-- C7: copyTokens with oneLine splices after dest a clone range whose
node count equals the source range's count, whose values are
element-wise equal to the source values, whose clones all sit on dest's
source line, and returns the (non-null) last cloned node. -/
theorem copyTokens_spec (toks : List Token) (dest fIdx lIdx : Nat)
    (hfl : fIdx ≤ lIdx) (hl : lIdx < toks.length) (hd : dest < toks.length) :
    ∃ clones : List Token,
      (copyTokens toks dest fIdx lIdx true).1 =
        toks.take (dest + 1) ++ clones ++ toks.drop (dest + 1) ∧
      clones.length = ((toks.drop fIdx).take (lIdx + 1 - fIdx)).length ∧
      clones.length = lIdx - fIdx + 1 ∧
      clones.map Token.str =
        ((toks.drop fIdx).take (lIdx + 1 - fIdx)).map Token.str ∧
      (∀ t ∈ clones, t.linenr = toks[dest].linenr) ∧
      (copyTokens toks dest fIdx lIdx true).2 = clones.getLast? ∧
      (copyTokens toks dest fIdx lIdx true).2 ≠ none := by
  have hget : toks[dest]? = some toks[dest] := List.getElem?_eq_getElem hd
  refine ⟨((toks.drop fIdx).take (lIdx + 1 - fIdx)).map
    (fun t => { t with linenr := toks[dest].linenr }), ?_, ?_, ?_, ?_, ?_, ?_, ?_⟩
  · simp [copyTokens, hget]
  · simp
  · simp only [List.length_map, List.length_take, List.length_drop]
    omega
  · simp only [List.map_map]
    congr 1
  · intro t ht
    simp only [List.mem_map] at ht
    obtain ⟨x, _, rfl⟩ := ht
    rfl
  · simp [copyTokens, hget]
  · simp only [copyTokens, hget, List.get?_eq_getElem?, Option.map_some,
      Option.getD_some, if_pos, Ne, List.getLast?_eq_none_iff,
      ← List.length_eq_zero, List.length_map, List.length_take,
      List.length_drop]
    omega

/-- Copying the range [1,2] of a three-token sequence after node 0
yields two clones with matching values on the line of node 0. -/
theorem copyTokens_spec_witness :
    1 ≤ 2 ∧ 2 < [tkn "a", tkn "b", tkn "c"].length ∧
      0 < [tkn "a", tkn "b", tkn "c"].length ∧
    ∃ clones : List Token,
      (copyTokens [tkn "a", tkn "b", tkn "c"] 0 1 2 true).1 =
        [tkn "a", tkn "b", tkn "c"].take (0 + 1) ++ clones ++
          [tkn "a", tkn "b", tkn "c"].drop (0 + 1) ∧
      clones.length =
        (([tkn "a", tkn "b", tkn "c"].drop 1).take (2 + 1 - 1)).length ∧
      clones.length = 2 - 1 + 1 ∧
      clones.map Token.str =
        (([tkn "a", tkn "b", tkn "c"].drop 1).take (2 + 1 - 1)).map Token.str ∧
      (∀ t ∈ clones, t.linenr = [tkn "a", tkn "b", tkn "c"][0].linenr) ∧
      (copyTokens [tkn "a", tkn "b", tkn "c"] 0 1 2 true).2 = clones.getLast? ∧
      (copyTokens [tkn "a", tkn "b", tkn "c"] 0 1 2 true).2 ≠ none :=
  ⟨by decide, by decide, by decide,
    copyTokens_spec [tkn "a", tkn "b", tkn "c"] 0 1 2
      (by decide) (by decide) (by decide)⟩

/-! ## Source file path and registry order (C10) -/

/-- Get filenames in registration order (the source file, then the
files it includes). -/
def getFiles (tl : TokenList) : List String := tl.files

/-- Modelled from the spec: getSourceFilePath returns the source file
path, the first filename of the registry.  The implementation is not in
the repository's files. -/
def getSourceFilePath (tl : TokenList) : String := tl.files.headD ""

/-- Modelled from the spec: clangSetOrigFiles populates the shadow file
list so getOrigFile can recover original names.  The implementation is
not in the repository's files. -/
def clangSetOrigFiles (tl : TokenList) : TokenList :=
  { tl with origFiles := tl.files }

/-- Modelled from the spec: createTokens builds a fresh sequence from
already-preprocessed lexer output, reporting failure (none) when the
lexer cannot tokenize the input; on success the sequence and the file
registry are populated for the first time, the source file's path
first, the included files after it.  The implementation is not in the
repository's files. -/
def createTokens (file0 : String) (includes : List String)
    (lexed : List (String × Nat × Nat)) : Option TokenList :=
  if lexed.any fun a => a.1.isEmpty then none
  else some
    { tokens := lexed.map fun a => ⟨a.1, 0, a.2.1, a.2.2, false, false, false, false⟩,
      files := file0 :: includes,
      origFiles := [] }

/-- The mutation steps analysis passes may apply to a sequence after
construction: every primitive of the interface. -/
inductive Mutates : TokenList → TokenList → Prop
  | refl (tl) : Mutates tl tl
  | addtok (tl tl' s ln col fi) :
      Mutates tl tl' → Mutates tl (addtoken tl' s ln col fi)
  | insertToks (tl tl' dest src n) : Mutates tl tl' →
      Mutates tl { tl' with tokens := insertTokens tl'.tokens dest src n }
  | copyToks (tl tl' dest fIdx lIdx ol) : Mutates tl tl' →
      Mutates tl { tl' with tokens := (copyTokens tl'.tokens dest fIdx lIdx ol).1 }
  | simplifyStd (tl tl') : Mutates tl tl' → Mutates tl (simplifyStdType tl')
  | simplifyPlatform (tl tl' bits) : Mutates tl tl' →
      Mutates tl { tl' with tokens := simplifyPlatformTypes bits tl'.tokens }
  | deallocate (tl tl') : Mutates tl tl' → Mutates tl (deallocateTokens tl')
  | appendFile (tl tl' p) : Mutates tl tl' → Mutates tl (appendFileIfNew tl' p).2
  | setOrigFiles (tl tl') : Mutates tl tl' → Mutates tl (clangSetOrigFiles tl')

theorem Mutates.files_head (tl tl' : TokenList) (f0 : String)
    (h0 : tl.files.head? = some f0) (hm : Mutates tl tl') :
    tl'.files.head? = some f0 := by
  induction hm with
  | refl => exact h0
  | addtok _ _ _ _ _ _ ih => exact ih
  | insertToks _ _ _ _ _ ih => exact ih
  | copyToks _ _ _ _ _ _ ih => exact ih
  | simplifyStd _ _ ih => exact ih
  | simplifyPlatform _ _ _ ih => exact ih
  | deallocate _ _ ih => exact ih
  | appendFile t p _ ih =>
    show (appendFileIfNew t p).2.files.head? = some f0
    unfold appendFileIfNew
    by_cases hp : p ∈ t.files
    · simpa [hp] using ih
    · simp only [hp, if_neg, ite_false]
      cases hl : t.files with
      | nil => rw [hl] at ih; simp at ih
      | cons a as => rw [hl] at ih; simpa using ih
  | setOrigFiles _ _ ih => exact ih

/-- C10: for every sequence successfully populated by createTokens, the
first element of getFiles() is the source file's path and equals
getSourceFilePath(), with the included files following after it; the
property persists across every later mutation of the sequence. -/
theorem getFiles_first_is_sourceFilePath (file0 : String)
    (includes : List String) (lexed : List (String × Nat × Nat))
    (tl tl' : TokenList)
    (hc : createTokens file0 includes lexed = some tl)
    (hm : Mutates tl tl') :
    (getFiles tl').head? = some file0 ∧
    getSourceFilePath tl' = file0 ∧
    getFiles tl = file0 :: includes := by
  unfold createTokens at hc
  split at hc
  · exact absurd hc (by simp)
  · have htl : tl.files = file0 :: includes := by
      cases hc.symm
      rfl
    have h0 : tl.files.head? = some file0 := by rw [htl]; rfl
    have h1 := Mutates.files_head tl tl' file0 h0 hm
    refine ⟨h1, ?_, htl⟩
    unfold getSourceFilePath
    cases hl : tl'.files with
    | nil => rw [hl] at h1; simp at h1
    | cons a as =>
      rw [hl] at h1
      simp only [List.head?_cons, Option.some.injEq] at h1
      simp [h1]

/-- A concretely created sequence: its registry starts with the source
path a.cpp, which getSourceFilePath returns, also after an appendFileIfNew
mutation. -/
theorem getFiles_first_is_sourceFilePath_witness :
    (getFiles (appendFileIfNew
        (TokenList.mk [⟨"int", 0, 1, 1, false, false, false, false⟩]
          ["a.cpp"] []) "b.h").2).head? = some "a.cpp" ∧
    getSourceFilePath (appendFileIfNew
        (TokenList.mk [⟨"int", 0, 1, 1, false, false, false, false⟩]
          ["a.cpp"] []) "b.h").2 = "a.cpp" ∧
    getFiles (TokenList.mk [⟨"int", 0, 1, 1, false, false, false, false⟩]
        ["a.cpp"] []) = "a.cpp" :: [] :=
  getFiles_first_is_sourceFilePath "a.cpp" [] [("int", 1, 1)] _ _ rfl
    (Mutates.appendFile _ _ "b.h" (Mutates.refl _))

/-- C1: front() and back() are null for an empty sequence, and otherwise
each end is reachable from the other in exactly count-1 link steps; this
chain invariant holds after every mutation operation of the sequence
(addtoken, insertTokens, copyTokens, simplifyStdType,
simplifyPlatformTypes, deallocateTokens), and indeed in every state. -/
theorem chain_invariant_preserved_by_mutations :
    (∀ tl s ln col fi, chainOk (addtoken tl s ln col fi).tokens) ∧
    (∀ toks dest src n, chainOk (insertTokens toks dest src n)) ∧
    (∀ toks dest f lst ol, chainOk (copyTokens toks dest f lst ol).1) ∧
    (∀ tl, chainOk (simplifyStdType tl).tokens) ∧
    (∀ bits toks, chainOk (simplifyPlatformTypes bits toks)) ∧
    (∀ tl, chainOk (deallocateTokens tl).tokens) ∧
    (∀ l : List Token, chainOk l) :=
  ⟨fun _ _ _ _ _ => chainOk_all _,
   fun _ _ _ _ => chainOk_all _,
   fun _ _ _ _ _ => chainOk_all _,
   fun _ => chainOk_all _,
   fun _ _ => chainOk_all _,
   fun _ => chainOk_all _,
   fun l => chainOk_all l⟩

/-! ## Sequence-membership check (C9) -/

/-- Walk forward through next-links looking for the target node. -/
def walkFind (nodes : List ChainNode) : Option Nat → Nat → Nat → Bool
  | none, _, _ => false
  | some c, tgt, fuel =>
    if c = tgt then true
    else
      match fuel with
      | 0 => false
      | fuel + 1 => walkFind nodes (stepNext nodes c) tgt fuel

/-- Modelled from the spec: validateToken verifies that the given token
is an element of the token list; it returns true for a null argument by
convention, else true only if the token is reachable by walking from
front().  The implementation is not in the repository's files. -/
def validateToken (tl : TokenList) (t : Option Nat) : Bool :=
  match t with
  | none => true
  | some i =>
    walkFind (buildNodes tl.tokens) (chainBounds tl.tokens).front i
      tl.tokens.length

/-- A node is reachable by walking the sequence forward from front(). -/
def ReachableFwd (l : List Token) (i : Nat) : Prop :=
  ∃ k, iterStep (stepNext (buildNodes l)) k (chainBounds l).front = some i

theorem iterStep_none (f : Nat → Option Nat) (k : Nat) :
    iterStep f k none = none := by
  cases k <;> rfl

theorem iterStep_next_of_ge (l : List Token) (k : Nat) :
    ∀ i, i < l.length → l.length ≤ i + k →
      iterStep (stepNext (buildNodes l)) k (some i) = none := by
  induction k with
  | zero => intro i hi hk; omega
  | succ k ih =>
    intro i hi hk
    by_cases h1 : i + 1 < l.length
    · simp only [iterStep, stepNext_buildNodes l i hi, if_pos h1]
      exact ih (i + 1) h1 (by omega)
    · simp only [iterStep, stepNext_buildNodes l i hi, if_neg h1]
      exact iterStep_none _ _

theorem reachableFwd_iff (l : List Token) (i : Nat) :
    ReachableFwd l i ↔ i < l.length := by
  constructor
  · rintro ⟨k, hk⟩
    by_cases he : l.isEmpty
    · rw [chainBounds, if_pos he] at hk
      rw [iterStep_none] at hk
      exact absurd hk (by simp)
    · have hlen : 0 < l.length := by
        cases l with
        | nil => simp at he
        | cons a as => simp
      rw [chainBounds, if_neg he] at hk
      by_cases hkl : k < l.length
      · have := iterStep_next l k 0 (by omega)
        rw [this] at hk
        cases hk
        omega
      · have := iterStep_next_of_ge l k 0 hlen (by omega)
        rw [this] at hk
        exact absurd hk (by simp)
  · intro hi
    have hne : ¬ l.isEmpty := by
      cases l with
      | nil => simp at hi
      | cons a as => simp
    refine ⟨i, ?_⟩
    rw [chainBounds, if_neg hne]
    simpa using iterStep_next l i 0 (by omega)

theorem walkFind_spec (l : List Token) (tgt : Nat) :
    ∀ fuel c, c < l.length →
      (walkFind (buildNodes l) (some c) tgt fuel = true ↔
        c ≤ tgt ∧ tgt < l.length ∧ tgt - c ≤ fuel) := by
  intro fuel
  induction fuel with
  | zero =>
    intro c hc
    constructor
    · intro hw
      rw [walkFind] at hw
      split at hw
      · next hceq => subst hceq; omega
      · exact absurd hw (by simp)
    · intro ⟨h1, h2, h3⟩
      have : c = tgt := by omega
      subst this
      rw [walkFind, if_pos rfl]
  | succ fuel ih =>
    intro c hc
    by_cases hceq : c = tgt
    · subst hceq
      constructor
      · intro _; omega
      · intro _; rw [walkFind, if_pos rfl]
    · rw [walkFind, if_neg hceq]
      by_cases h1 : c + 1 < l.length
      · rw [stepNext_buildNodes l c hc, if_pos h1]
        rw [ih (c + 1) h1]
        omega
      · rw [stepNext_buildNodes l c hc, if_neg h1]
        show (walkFind (buildNodes l) none tgt fuel = true ↔ _)
        rw [walkFind]
        constructor
        · intro hw; exact absurd hw (by simp)
        · intro ⟨ha, hb, _⟩; omega

/-- C9: validateToken returns true on a null token, and for a non-null
token it returns true exactly when the token is reachable by walking
the sequence forward from front(). -/
theorem validateToken_spec (tl : TokenList) :
    validateToken tl none = true ∧
    ∀ i, (validateToken tl (some i) = true ↔ ReachableFwd tl.tokens i) := by
  refine ⟨rfl, fun i => ?_⟩
  rw [reachableFwd_iff]
  unfold validateToken
  by_cases he : tl.tokens.isEmpty
  · have hlen : tl.tokens.length = 0 := by
      cases hl : tl.tokens with
      | nil => rfl
      | cons a as => rw [hl] at he; simp at he
    rw [chainBounds, if_pos he]
    show (walkFind _ none i _ = true ↔ _)
    rw [walkFind]
    constructor
    · intro hw; exact absurd hw (by simp)
    · intro hi; omega
  · have hlen : 0 < tl.tokens.length := by
      cases hl : tl.tokens with
      | nil => rw [hl] at he; simp at he
      | cons a as => simp
    rw [chainBounds, if_neg he]
    rw [walkFind_spec tl.tokens i tl.tokens.length 0 (by omega)]
    omega

/-! ## AST layer: builder and validator (C2) -/

/-- The AST links a token carries: its parent and up to two operands. -/
structure AstLinks where
  astParent : Option Nat := none
  astOperand1 : Option Nat := none
  astOperand2 : Option Nat := none
  deriving Repr, DecidableEq

/-- A sequence together with the AST layer threaded over it. -/
structure AstState where
  tokens : List Token
  links : List AstLinks
  deriving Repr, DecidableEq

/-- The links of node i (a node outside the list carries no links). -/
def linkAt (links : List AstLinks) (i : Nat) : AstLinks :=
  (links.get? i).getD {}

/-- The AST parent of node i. -/
def parentOf (links : List AstLinks) (i : Nat) : Option Nat :=
  (linkAt links i).astParent

/-- Climb k parent links from node i. -/
def iterParent (links : List AstLinks) : Nat → Nat → Option Nat
  | 0, i => some i
  | k + 1, i =>
    match parentOf links i with
    | none => none
    | some p => iterParent links k p

/-- A child reference is sound when the child is a member of the
sequence and reciprocally references its claimed parent. -/
def childOk (st : AstState) (i c : Nat) : Bool :=
  decide (c < st.tokens.length) && (parentOf st.links c == some i)

/-- All validateAst checks for one node: reciprocal children, member
parent, and a parent chain that terminates (no node is its own
ancestor). -/
def nodeOk (st : AstState) (i : Nat) : Bool :=
  (match (linkAt st.links i).astOperand1 with
   | none => true
   | some c => childOk st i c) &&
  (match (linkAt st.links i).astOperand2 with
   | none => true
   | some c => childOk st i c) &&
  (match (linkAt st.links i).astParent with
   | none => true
   | some p => decide (p < st.tokens.length)) &&
  (iterParent st.links (st.links.length + 1) i == none)

/-- Modelled from the spec: validateAst walks every node and verifies
that every non-null AST child has a back-reference to its claimed
parent, that no node is its own ancestor, and that every referenced AST
node is a member of the owning sequence; on violation it throws a fatal
internal error (the error value of Except, not a recoverable return
value).  The implementation is not in the repository's files. -/
def validateAst (st : AstState) : Except String Unit :=
  if (List.range st.tokens.length).all (nodeOk st) then Except.ok ()
  else Except.error "validateAst failed: AST broken"

/-- Some node's AST child does not reciprocally reference it as parent. -/
def NonReciprocalChild (st : AstState) : Prop :=
  ∃ i c, i < st.tokens.length ∧
    ((linkAt st.links i).astOperand1 = some c ∨
      (linkAt st.links i).astOperand2 = some c) ∧
    parentOf st.links c ≠ some i

/-- Some node is its own AST ancestor (a parent-link cycle through it). -/
def OwnAstAncestor (st : AstState) : Prop :=
  ∃ i k, i < st.tokens.length ∧ iterParent st.links (k + 1) i = some i

/-- Some referenced AST node is not a member of the owning sequence. -/
def AstNonMember (st : AstState) : Prop :=
  ∃ i c, i < st.tokens.length ∧
    ((linkAt st.links i).astOperand1 = some c ∨
      (linkAt st.links i).astOperand2 = some c ∨
      (linkAt st.links i).astParent = some c) ∧
    st.tokens.length ≤ c

/-- A binary expression tree over node positions. -/
inductive AstTree where
  | leaf (i : Nat)
  | node (i : Nat) (l r : AstTree)
  deriving Repr, DecidableEq

/-- The position of the tree's root node. -/
def AstTree.rootIdx : AstTree → Nat
  | .leaf i => i
  | .node i _ _ => i

/-- All node positions of the tree, in order. -/
def AstTree.idxs : AstTree → List Nat
  | .leaf i => [i]
  | .node i l r => l.idxs ++ i :: r.idxs

/-- The parent of position c in the tree, if any. -/
def findParent : AstTree → Nat → Option Nat
  | .leaf _, _ => none
  | .node j l r, c =>
    if l.rootIdx = c || r.rootIdx = c then some j
    else
      match findParent l c with
      | some p => some p
      | none => findParent r c

/-- The first operand of position i in the tree, if any. -/
def findChild1 : AstTree → Nat → Option Nat
  | .leaf _, _ => none
  | .node j l r, i =>
    if j = i then some l.rootIdx
    else
      match findChild1 l i with
      | some c => some c
      | none => findChild1 r i

/-- The second operand of position i in the tree, if any. -/
def findChild2 : AstTree → Nat → Option Nat
  | .leaf _, _ => none
  | .node j l r, i =>
    if j = i then some r.rootIdx
    else
      match findChild2 l i with
      | some c => some c
      | none => findChild2 r i

/-- The depth of position i below the tree's root (0 if absent). -/
def depthIn : AstTree → Nat → Nat
  | .leaf _, _ => 0
  | .node j l r, i =>
    if i = j then 0
    else if i ∈ l.idxs then depthIn l i + 1
    else if i ∈ r.idxs then depthIn r i + 1
    else 0

/-- The per-node link list an expression tree induces on a sequence of
n nodes. -/
def treeLinks (t : AstTree) (n : Nat) : List AstLinks :=
  (List.range n).map fun i => ⟨findParent t i, findChild1 t i, findChild2 t i⟩

/-- The precedence of a binary operator token value. -/
def binOpPrec (s : String) : Option Nat :=
  if s = "=" then some 1
  else if s = "+" || s = "-" then some 4
  else if s = "*" || s = "/" || s = "%" then some 5
  else none

/-- Whether a token value can stand as an operand. -/
def isOperandStr (s : String) : Bool :=
  (binOpPrec s == none) && !([";", "\x7b", "\x7d", "(", ")", ","].contains s)

/-- Parse one operand token as a leaf. -/
def parseLeaf : List (Nat × String) → Option (AstTree × List (Nat × String))
  | [] => none
  | (i, s) :: rest => if isOperandStr s then some (.leaf i, rest) else none

/-- Precedence-climbing loop: extend lhs with operator/operand pairs of
at least the wanted precedence. -/
def parseBin : Nat → Nat → AstTree → List (Nat × String) →
    AstTree × List (Nat × String)
  | 0, _, lhs, ts => (lhs, ts)
  | _ + 1, _, lhs, [] => (lhs, [])
  | fuel + 1, minPrec, lhs, (i, s) :: rest =>
    match binOpPrec s with
    | none => (lhs, (i, s) :: rest)
    | some p =>
      if minPrec ≤ p then
        match parseLeaf rest with
        | none => (lhs, (i, s) :: rest)
        | some (rhsLeaf, rest2) =>
          let pr := parseBin fuel (p + 1) rhsLeaf rest2
          parseBin fuel minPrec (.node i lhs pr.1) pr.2
      else (lhs, (i, s) :: rest)

/-- Parse the leading expression of an indexed token stream. -/
def parseExpr (ts : List (Nat × String)) : Option AstTree :=
  match parseLeaf ts with
  | none => none
  | some (lf, rest) => some (parseBin ts.length 0 lf rest).1

/-- Modelled from the spec: createAst builds the expression-tree layer
over the sequence by conventional operator-precedence parsing of the
operator and operand token values, attaching parents and operands; a
stream with no leading expression gets no links.  The implementation is
not in the repository's files. -/
def createAst (toks : List Token) : List AstLinks :=
  match parseExpr (toks.enum.map fun p => (p.1, p.2.str)) with
  | some t => treeLinks t toks.length
  | none => (List.range toks.length).map fun _ => {}

theorem validateAst_error_of_nodeBad (st : AstState) (i : Nat)
    (hi : i < st.tokens.length) (hbad : nodeOk st i = false) :
    validateAst st = Except.error "validateAst failed: AST broken" := by
  unfold validateAst
  rw [if_neg]
  intro hall
  rw [List.all_eq_true] at hall
  have := hall i (List.mem_range.mpr hi)
  rw [hbad] at this
  exact absurd this (by simp)

theorem validateAst_error_of_nonReciprocal (st : AstState)
    (h : NonReciprocalChild st) :
    validateAst st = Except.error "validateAst failed: AST broken" := by
  obtain ⟨i, c, hi, hop, hpar⟩ := h
  refine validateAst_error_of_nodeBad st i hi ?_
  have hc : childOk st i c = false := by
    unfold childOk
    rw [beq_eq_false_iff_ne.mpr hpar]
    simp
  rcases hop with hop | hop
  · unfold nodeOk
    rw [hop]
    simp [hc]
  · unfold nodeOk
    rw [hop]
    simp [hc]

theorem validateAst_error_of_nonMember (st : AstState)
    (h : AstNonMember st) :
    validateAst st = Except.error "validateAst failed: AST broken" := by
  obtain ⟨i, c, hi, hop, hge⟩ := h
  refine validateAst_error_of_nodeBad st i hi ?_
  have hlt : ¬ (c < st.tokens.length) := by omega
  rcases hop with hop | hop | hop
  · unfold nodeOk
    rw [hop]
    simp [childOk, hlt]
  · unfold nodeOk
    rw [hop]
    simp [childOk, hlt]
  · unfold nodeOk
    rw [hop]
    simp [hlt]

theorem iterParent_add (links : List AstLinks) (a b i : Nat) :
    iterParent links (a + b) i =
      match iterParent links a i with
      | none => none
      | some j => iterParent links b j := by
  induction a generalizing i with
  | zero => simp [iterParent]
  | succ a ih =>
    show iterParent links (a + 1 + b) i = _
    have : a + 1 + b = (a + b) + 1 := by omega
    rw [this]
    show (match parentOf links i with
      | none => none
      | some p => iterParent links (a + b) p) = _
    cases hp : parentOf links i with
    | none =>
      show none = _
      have : iterParent links (a + 1) i = none := by
        show (match parentOf links i with
          | none => none
          | some p => iterParent links a p) = none
        rw [hp]
      rw [this]
    | some p =>
      have h1 : iterParent links (a + 1) i = iterParent links a p := by
        show (match parentOf links i with
          | none => none
          | some q => iterParent links a q) = _
        rw [hp]
      rw [h1]
      show iterParent links (a + b) p = _
      exact ih p

theorem iterParent_none_of_le (links : List AstLinks) (a b i : Nat)
    (hab : a ≤ b) (ha : iterParent links a i = none) :
    iterParent links b i = none := by
  have : b = a + (b - a) := by omega
  rw [this, iterParent_add, ha]

theorem iterParent_cycle_pump (links : List AstLinks) (m i : Nat)
    (hm : iterParent links m i = some i) :
    ∀ q, iterParent links (q * m) i = some i := by
  intro q
  induction q with
  | zero => rw [Nat.zero_mul]; rfl
  | succ q ih =>
    have : (q + 1) * m = q * m + m := by ring
    rw [this, iterParent_add, ih]
    exact hm

theorem validateAst_error_of_ownAncestor (st : AstState)
    (h : OwnAstAncestor st) :
    validateAst st = Except.error "validateAst failed: AST broken" := by
  obtain ⟨i, k, hi, hk⟩ := h
  refine validateAst_error_of_nodeBad st i hi ?_
  have hne : iterParent st.links (st.links.length + 1) i ≠ none := by
    set L := st.links.length + 1 with hL
    have hq := iterParent_cycle_pump st.links (k + 1) i hk L
    intro hnone
    have hle : L ≤ L * (k + 1) := by
      have : 1 ≤ k + 1 := by omega
      calc L = L * 1 := by omega
        _ ≤ L * (k + 1) := Nat.mul_le_mul_left L this
    have := iterParent_none_of_le st.links L (L * (k + 1)) i hle hnone
    rw [this] at hq
    exact absurd hq (by simp)
  unfold nodeOk
  rw [beq_eq_false_iff_ne.mpr hne]
  simp

theorem AstTree.rootIdx_mem (t : AstTree) : t.rootIdx ∈ t.idxs := by
  cases t with
  | leaf i => simp [AstTree.rootIdx, AstTree.idxs]
  | node i l r => simp [AstTree.rootIdx, AstTree.idxs]

theorem nodup_node_parts {j : Nat} {l r : AstTree}
    (hn : (AstTree.node j l r).idxs.Nodup) :
    l.idxs.Nodup ∧ r.idxs.Nodup ∧ j ∉ l.idxs ∧ j ∉ r.idxs ∧
      ∀ x ∈ l.idxs, x ∉ r.idxs := by
  simp only [AstTree.idxs, List.nodup_append, List.nodup_cons,
    List.disjoint_cons_right] at hn
  obtain ⟨h1, ⟨h2, h3⟩, h4, h5⟩ := hn
  exact ⟨h1, h3, h4, h2, fun x hx => h5 hx⟩

theorem findParent_mem (t : AstTree) (c p : Nat)
    (h : findParent t c = some p) : c ∈ t.idxs ∧ p ∈ t.idxs := by
  induction t with
  | leaf i => simp [findParent] at h
  | node j l r ihl ihr =>
    rw [findParent] at h
    split at h
    · next hroot =>
      rw [Bool.or_eq_true, decide_eq_true_eq, decide_eq_true_eq] at hroot
      cases h
      rcases hroot with hc | hc
      · exact ⟨by simp [AstTree.idxs, hc ▸ AstTree.rootIdx_mem l],
          by simp [AstTree.idxs]⟩
      · exact ⟨by simp [AstTree.idxs, hc ▸ AstTree.rootIdx_mem r],
          by simp [AstTree.idxs]⟩
    · cases hl : findParent l c with
      | some q =>
        rw [hl] at h
        cases h
        have := ihl hl
        exact ⟨by simp [AstTree.idxs, this.1], by simp [AstTree.idxs, this.2]⟩
      | none =>
        rw [hl] at h
        have := ihr h
        exact ⟨by simp [AstTree.idxs, this.1], by simp [AstTree.idxs, this.2]⟩

theorem findChild1_mem (t : AstTree) (i c : Nat)
    (h : findChild1 t i = some c) : i ∈ t.idxs ∧ c ∈ t.idxs := by
  induction t with
  | leaf j => simp [findChild1] at h
  | node j l r ihl ihr =>
    rw [findChild1] at h
    split at h
    · next hji =>
      cases h
      exact ⟨by simp [AstTree.idxs, hji], by simp [AstTree.idxs, AstTree.rootIdx_mem l]⟩
    · cases hl : findChild1 l i with
      | some q =>
        rw [hl] at h
        cases h
        have := ihl hl
        exact ⟨by simp [AstTree.idxs, this.1], by simp [AstTree.idxs, this.2]⟩
      | none =>
        rw [hl] at h
        have := ihr h
        exact ⟨by simp [AstTree.idxs, this.1], by simp [AstTree.idxs, this.2]⟩

theorem findChild2_mem (t : AstTree) (i c : Nat)
    (h : findChild2 t i = some c) : i ∈ t.idxs ∧ c ∈ t.idxs := by
  induction t with
  | leaf j => simp [findChild2] at h
  | node j l r ihl ihr =>
    rw [findChild2] at h
    split at h
    · next hji =>
      cases h
      exact ⟨by simp [AstTree.idxs, hji], by simp [AstTree.idxs, AstTree.rootIdx_mem r]⟩
    · cases hl : findChild2 l i with
      | some q =>
        rw [hl] at h
        cases h
        have := ihl hl
        exact ⟨by simp [AstTree.idxs, this.1], by simp [AstTree.idxs, this.2]⟩
      | none =>
        rw [hl] at h
        have := ihr h
        exact ⟨by simp [AstTree.idxs, this.1], by simp [AstTree.idxs, this.2]⟩

theorem findParent_root_none (t : AstTree) (hn : t.idxs.Nodup) :
    findParent t t.rootIdx = none := by
  cases t with
  | leaf i => rfl
  | node j l r =>
    obtain ⟨hnl, hnr, hjl, hjr, hdisj⟩ := nodup_node_parts hn
    rw [findParent]
    have hcond : (l.rootIdx = (AstTree.node j l r).rootIdx ||
        r.rootIdx = (AstTree.node j l r).rootIdx) = false := by
      simp only [AstTree.rootIdx, Bool.or_eq_false_iff, decide_eq_false_iff_not]
      constructor
      · intro he
        exact hjl (he ▸ AstTree.rootIdx_mem l)
      · intro he
        exact hjr (he ▸ AstTree.rootIdx_mem r)
    rw [if_neg (by rw [hcond]; simp)]
    have hleft : findParent l (AstTree.node j l r).rootIdx = none := by
      cases hfp : findParent l (AstTree.node j l r).rootIdx with
      | none => rfl
      | some q =>
        have := (findParent_mem l _ q hfp).1
        exact absurd this (by simpa [AstTree.rootIdx] using hjl)
    rw [hleft]
    cases hfp : findParent r (AstTree.node j l r).rootIdx with
    | none => rfl
    | some q =>
      have := (findParent_mem r _ q hfp).1
      exact absurd this (by simpa [AstTree.rootIdx] using hjr)

theorem findParent_of_child (t : AstTree) (hn : t.idxs.Nodup) (i c : Nat)
    (h : findChild1 t i = some c ∨ findChild2 t i = some c) :
    findParent t c = some i := by
  induction t with
  | leaf j => rcases h with h | h <;> simp [findChild1, findChild2] at h
  | node j l r ihl ihr =>
    obtain ⟨hnl, hnr, hjl, hjr, hdisj⟩ := nodup_node_parts hn
    rcases h with h | h
    · rw [findChild1] at h
      split at h
      · next hji =>
        cases h
        rw [findParent, if_pos (by simp)]
        rw [hji]
      · next hji =>
        cases hfc : findChild1 l i with
        | some q =>
          rw [hfc] at h
          cases h
          have hp := ihl hnl (Or.inl hfc)
          have hcl : c ∈ l.idxs := (findChild1_mem l i c hfc).2
          rw [findParent, if_neg, hp]
          rw [Bool.or_eq_true, not_or]
          constructor
          · intro he
            rw [decide_eq_true_eq] at he
            rw [← he] at hp
            rw [findParent_root_none l hnl] at hp
            exact absurd hp (by simp)
          · intro he
            rw [decide_eq_true_eq] at he
            exact hdisj c hcl (he ▸ AstTree.rootIdx_mem r)
        | none =>
          rw [hfc] at h
          have hp := ihr hnr (Or.inl h)
          have hcr : c ∈ r.idxs := (findChild1_mem r i c h).2
          have hnone : findParent l c = none := by
            cases hfp : findParent l c with
            | none => rfl
            | some q =>
              exact absurd ((findParent_mem l c q hfp).1)
                (fun hin => hdisj c hin hcr)
          rw [findParent, if_neg, hnone, hp]
          rw [Bool.or_eq_true, not_or]
          constructor
          · intro he
            rw [decide_eq_true_eq] at he
            exact hdisj c (he ▸ AstTree.rootIdx_mem l) hcr
          · intro he
            rw [decide_eq_true_eq] at he
            rw [← he] at hp
            rw [findParent_root_none r hnr] at hp
            exact absurd hp (by simp)
    · rw [findChild2] at h
      split at h
      · next hji =>
        cases h
        rw [findParent, if_pos (by simp)]
        rw [hji]
      · next hji =>
        cases hfc : findChild2 l i with
        | some q =>
          rw [hfc] at h
          cases h
          have hp := ihl hnl (Or.inr hfc)
          have hcl : c ∈ l.idxs := (findChild2_mem l i c hfc).2
          rw [findParent, if_neg, hp]
          rw [Bool.or_eq_true, not_or]
          constructor
          · intro he
            rw [decide_eq_true_eq] at he
            rw [← he] at hp
            rw [findParent_root_none l hnl] at hp
            exact absurd hp (by simp)
          · intro he
            rw [decide_eq_true_eq] at he
            exact hdisj c hcl (he ▸ AstTree.rootIdx_mem r)
        | none =>
          rw [hfc] at h
          have hp := ihr hnr (Or.inr h)
          have hcr : c ∈ r.idxs := (findChild2_mem r i c h).2
          have hnone : findParent l c = none := by
            cases hfp : findParent l c with
            | none => rfl
            | some q =>
              exact absurd ((findParent_mem l c q hfp).1)
                (fun hin => hdisj c hin hcr)
          rw [findParent, if_neg, hnone, hp]
          rw [Bool.or_eq_true, not_or]
          constructor
          · intro he
            rw [decide_eq_true_eq] at he
            exact hdisj c (he ▸ AstTree.rootIdx_mem l) hcr
          · intro he
            rw [decide_eq_true_eq] at he
            rw [← he] at hp
            rw [findParent_root_none r hnr] at hp
            exact absurd hp (by simp)

theorem depthIn_root (t : AstTree) : depthIn t t.rootIdx = 0 := by
  cases t with
  | leaf i => rfl
  | node j l r => simp [depthIn, AstTree.rootIdx]

theorem depthIn_parent (t : AstTree) (hn : t.idxs.Nodup) (c p : Nat)
    (h : findParent t c = some p) : depthIn t c = depthIn t p + 1 := by
  induction t with
  | leaf i => simp [findParent] at h
  | node j l r ihl ihr =>
    obtain ⟨hnl, hnr, hjl, hjr, hdisj⟩ := nodup_node_parts hn
    rw [findParent] at h
    split at h
    · next hroot =>
      rw [Bool.or_eq_true, decide_eq_true_eq, decide_eq_true_eq] at hroot
      cases h
      have hdj : depthIn (AstTree.node p l r) p = 0 := by simp [depthIn]
      rw [hdj]
      rcases hroot with hc | hc
      · have hcl : c ∈ l.idxs := hc ▸ AstTree.rootIdx_mem l
        have hcj : c ≠ p := fun he => hjl (he ▸ hcl)
        rw [depthIn, if_neg hcj, if_pos hcl, ← hc, depthIn_root l]
      · have hcr : c ∈ r.idxs := hc ▸ AstTree.rootIdx_mem r
        have hcj : c ≠ p := fun he => hjr (he ▸ hcr)
        have hcnl : c ∉ l.idxs := fun hin => hdisj c hin hcr
        rw [depthIn, if_neg hcj, if_neg hcnl, if_pos hcr, ← hc, depthIn_root r]
    · cases hl : findParent l c with
      | some q =>
        rw [hl] at h
        cases h
        have hmem := findParent_mem l c p hl
        have hcl := hmem.1
        have hpl := hmem.2
        have hcj : c ≠ j := fun he => hjl (he ▸ hcl)
        have hpj : p ≠ j := fun he => hjl (he ▸ hpl)
        rw [depthIn, if_neg hcj, if_pos hcl]
        rw [depthIn, if_neg hpj, if_pos hpl]
        rw [ihl hnl hl]
      | none =>
        rw [hl] at h
        have hmem := findParent_mem r c p h
        have hcr := hmem.1
        have hpr := hmem.2
        have hcj : c ≠ j := fun he => hjr (he ▸ hcr)
        have hpj : p ≠ j := fun he => hjr (he ▸ hpr)
        have hcnl : c ∉ l.idxs := fun hin => hdisj c hin hcr
        have hpnl : p ∉ l.idxs := fun hin => hdisj p hin hpr
        rw [depthIn, if_neg hcj, if_neg hcnl, if_pos hcr]
        rw [depthIn, if_neg hpj, if_neg hpnl, if_pos hpr]
        rw [ihr hnr h]

theorem depthIn_lt_length (t : AstTree) (i : Nat) (hi : i ∈ t.idxs) :
    depthIn t i < t.idxs.length := by
  induction t with
  | leaf j => simp [depthIn, AstTree.idxs]
  | node j l r ihl ihr =>
    by_cases hij : i = j
    · simp [depthIn, hij, AstTree.idxs]
    · by_cases hil : i ∈ l.idxs
      · rw [depthIn, if_neg hij, if_pos hil]
        have := ihl hil
        simp only [AstTree.idxs, List.length_append, List.length_cons]
        omega
      · have hir : i ∈ r.idxs := by
          simp only [AstTree.idxs, List.mem_append, List.mem_cons] at hi
          rcases hi with h | h | h
          · exact absurd h hil
          · exact absurd h hij
          · exact h
        rw [depthIn, if_neg hij, if_neg hil, if_pos hir]
        have := ihr hir
        simp only [AstTree.idxs, List.length_append, List.length_cons]
        omega

theorem depthIn_of_not_mem (t : AstTree) (i : Nat) (hi : i ∉ t.idxs) :
    depthIn t i = 0 := by
  cases t with
  | leaf j => rfl
  | node j l r =>
    simp only [AstTree.idxs, List.mem_append, List.mem_cons, not_or] at hi
    rw [depthIn, if_neg hi.2.1, if_neg hi.1, if_neg hi.2.2]

theorem linkAt_treeLinks (t : AstTree) (n i : Nat) :
    linkAt (treeLinks t n) i =
      if i < n then ⟨findParent t i, findChild1 t i, findChild2 t i⟩
      else {} := by
  unfold linkAt treeLinks
  by_cases hi : i < n
  · rw [if_pos hi]
    rw [List.get?_eq_getElem?, List.getElem?_map, List.getElem?_range hi]
    rfl
  · rw [if_neg hi]
    rw [List.get?_eq_getElem?, List.getElem?_map]
    have : (List.range n)[i]? = none := by
      rw [List.getElem?_eq_none]
      simpa using Nat.le_of_not_lt hi
    rw [this]
    rfl

theorem parentOf_treeLinks (t : AstTree) (n i : Nat) :
    parentOf (treeLinks t n) i =
      if i < n then findParent t i else none := by
  unfold parentOf
  rw [linkAt_treeLinks]
  by_cases hi : i < n
  · rw [if_pos hi, if_pos hi]
  · rw [if_neg hi, if_neg hi]

theorem iterParent_treeLinks_none (t : AstTree) (hn : t.idxs.Nodup) (n : Nat) :
    ∀ d i, depthIn t i ≤ d →
      iterParent (treeLinks t n) (depthIn t i + 1) i = none := by
  intro d
  induction d with
  | zero =>
    intro i hd
    have h0 : depthIn t i = 0 := by omega
    rw [h0]
    show (match parentOf (treeLinks t n) i with
      | none => none
      | some p => iterParent (treeLinks t n) 0 p) = none
    rw [parentOf_treeLinks]
    by_cases hi : i < n
    · rw [if_pos hi]
      cases hp : findParent t i with
      | none => rfl
      | some p =>
        have := depthIn_parent t hn i p hp
        omega
    · rw [if_neg hi]
  | succ d ih =>
    intro i hd
    show (match parentOf (treeLinks t n) i with
      | none => none
      | some p => iterParent (treeLinks t n) (depthIn t i) p) = none
    rw [parentOf_treeLinks]
    by_cases hi : i < n
    · rw [if_pos hi]
      cases hp : findParent t i with
      | none => rfl
      | some p =>
        have hdp := depthIn_parent t hn i p hp
        have := ih p (by omega)
        rw [show depthIn t i = depthIn t p + 1 from hdp]
        exact this
    · rw [if_neg hi]

theorem validateAst_treeLinks (toks : List Token) (t : AstTree)
    (hn : t.idxs.Nodup) (hb : ∀ x ∈ t.idxs, x < toks.length) :
    validateAst ⟨toks, treeLinks t toks.length⟩ = Except.ok () := by
  set n := toks.length with hnn
  unfold validateAst
  rw [if_pos]
  rw [List.all_eq_true]
  intro i hi
  rw [List.mem_range] at hi
  have hidx_len : t.idxs.length ≤ n := by
    have hsub : t.idxs ⊆ List.range n := by
      intro x hx
      rw [List.mem_range]
      exact hb x hx
    have := (List.subperm_of_subset hn hsub).length_le
    simpa using this
  have hdepth : depthIn t i ≤ n := by
    by_cases hmem : i ∈ t.idxs
    · have := depthIn_lt_length t i hmem
      omega
    · rw [depthIn_of_not_mem t i hmem]
      omega
  have hlinklen : (treeLinks t n).length = n := by
    simp [treeLinks]
  unfold nodeOk
  have hlk : linkAt (treeLinks t n) i =
      ⟨findParent t i, findChild1 t i, findChild2 t i⟩ := by
    rw [linkAt_treeLinks, if_pos hi]
  rw [hlk]
  have hterm : iterParent (treeLinks t n) ((treeLinks t n).length + 1) i =
      none := by
    have h1 := iterParent_treeLinks_none t hn n (depthIn t i) i (le_refl _)
    have h2 : depthIn t i + 1 ≤ (treeLinks t n).length + 1 := by
      rw [hlinklen]
      omega
    exact iterParent_none_of_le _ _ _ i h2 h1
  rw [hterm]
  simp only [beq_self_eq_true, Bool.and_true]
  have hchild : ∀ c, (findChild1 t i = some c ∨ findChild2 t i = some c) →
      childOk ⟨toks, treeLinks t n⟩ i c = true := by
    intro c hc
    unfold childOk
    have hcm : c ∈ t.idxs := by
      rcases hc with hc | hc
      · exact (findChild1_mem t i c hc).2
      · exact (findChild2_mem t i c hc).2
    have hclt : c < n := hb c hcm
    have hrecip : findParent t c = some i := findParent_of_child t hn i c hc
    show (decide (c < toks.length) && (parentOf (treeLinks t n) c == some i)) = true
    rw [parentOf_treeLinks, if_pos hclt, hrecip]
    simp [hclt, hnn.symm]
  refine Bool.and_eq_true_iff.mpr ⟨Bool.and_eq_true_iff.mpr ⟨?_, ?_⟩, ?_⟩
  · cases hc1 : findChild1 t i with
    | none => rfl
    | some c => exact hchild c (Or.inl hc1)
  · cases hc2 : findChild2 t i with
    | none => rfl
    | some c => exact hchild c (Or.inr hc2)
  · cases hp : findParent t i with
    | none => rfl
    | some p =>
      have hpm : p ∈ t.idxs := (findParent_mem t i p hp).2
      have := hb p hpm
      simp [this]

theorem parseLeaf_inv (ts : List (Nat × String)) (tr : AstTree)
    (r : List (Nat × String)) (h : parseLeaf ts = some (tr, r)) :
    ∃ j s, ts = (j, s) :: r ∧ tr = AstTree.leaf j := by
  cases ts with
  | nil => simp [parseLeaf] at h
  | cons a rest =>
    obtain ⟨j, s⟩ := a
    rw [parseLeaf] at h
    split at h
    · cases h
      exact ⟨j, s, rfl, rfl⟩
    · exact absurd h (by simp)

theorem parseBin_sublist (fuel : Nat) :
    ∀ minPrec lhs ts,
      List.Sublist
        ((parseBin fuel minPrec lhs ts).1.idxs ++
          (parseBin fuel minPrec lhs ts).2.map Prod.fst)
        (lhs.idxs ++ ts.map Prod.fst) := by
  induction fuel with
  | zero => intro minPrec lhs ts; exact List.Sublist.refl _
  | succ fuel ih =>
    intro minPrec lhs ts
    cases ts with
    | nil => simp [parseBin]
    | cons a rest =>
      obtain ⟨i, s⟩ := a
      show List.Sublist
        ((match binOpPrec s with
          | none => (lhs, (i, s) :: rest)
          | some p =>
            if minPrec ≤ p then
              match parseLeaf rest with
              | none => (lhs, (i, s) :: rest)
              | some (rhsLeaf, rest2) =>
                let pr := parseBin fuel (p + 1) rhsLeaf rest2
                parseBin fuel minPrec (.node i lhs pr.1) pr.2
            else (lhs, (i, s) :: rest)).1.idxs ++
          (match binOpPrec s with
          | none => (lhs, (i, s) :: rest)
          | some p =>
            if minPrec ≤ p then
              match parseLeaf rest with
              | none => (lhs, (i, s) :: rest)
              | some (rhsLeaf, rest2) =>
                let pr := parseBin fuel (p + 1) rhsLeaf rest2
                parseBin fuel minPrec (.node i lhs pr.1) pr.2
            else (lhs, (i, s) :: rest)).2.map Prod.fst)
        (lhs.idxs ++ ((i, s) :: rest).map Prod.fst)
      split
      · exact List.Sublist.refl _
      · next p hbp =>
        by_cases hmp : minPrec ≤ p
        · rw [if_pos hmp]
          cases hpl : parseLeaf rest with
          | none =>
            exact List.Sublist.refl _
          | some pr0 =>
            obtain ⟨rhsLeaf, rest2⟩ := pr0
            obtain ⟨j, sj, hrest, hleaf⟩ := parseLeaf_inv rest rhsLeaf rest2 hpl
            show List.Sublist
              ((parseBin fuel minPrec
                  (.node i lhs (parseBin fuel (p + 1) rhsLeaf rest2).1)
                  (parseBin fuel (p + 1) rhsLeaf rest2).2).1.idxs ++
                (parseBin fuel minPrec
                  (.node i lhs (parseBin fuel (p + 1) rhsLeaf rest2).1)
                  (parseBin fuel (p + 1) rhsLeaf rest2).2).2.map Prod.fst)
              (lhs.idxs ++ ((i, s) :: rest).map Prod.fst)
            have IH1 := ih (p + 1) rhsLeaf rest2
            have IH2 := ih minPrec
              (.node i lhs (parseBin fuel (p + 1) rhsLeaf rest2).1)
              (parseBin fuel (p + 1) rhsLeaf rest2).2
            refine IH2.trans ?_
            subst hrest hleaf
            simp only [List.map_cons, AstTree.idxs, List.append_assoc,
              List.cons_append]
            refine List.Sublist.append_left ?_ lhs.idxs
            refine List.Sublist.cons₂ i ?_
            simpa using IH1
        · rw [if_neg hmp]

theorem enumStr_map_fst (toks : List Token) :
    (toks.enum.map fun p => (p.1, p.2.str)).map Prod.fst =
      List.range toks.length := by
  rw [List.map_map]
  have : (Prod.fst ∘ fun p : Nat × Token => (p.1, p.2.str)) = Prod.fst := rfl
  rw [this, List.enum_map_fst]

theorem parseExpr_tree_props (toks : List Token) (t : AstTree)
    (h : parseExpr (toks.enum.map fun p => (p.1, p.2.str)) = some t) :
    t.idxs.Nodup ∧ ∀ x ∈ t.idxs, x < toks.length := by
  unfold parseExpr at h
  cases hpl : parseLeaf (toks.enum.map fun p => (p.1, p.2.str)) with
  | none => rw [hpl] at h; exact absurd h (by simp)
  | some pr0 =>
    obtain ⟨lf, rest⟩ := pr0
    rw [hpl] at h
    simp only [Option.some.injEq] at h
    obtain ⟨j, s, hts, hleaf⟩ := parseLeaf_inv _ lf rest hpl
    have PB := parseBin_sublist (toks.enum.map fun p => (p.1, p.2.str)).length
      0 lf rest
    have hall : List.Sublist
        ((parseBin (toks.enum.map fun p => (p.1, p.2.str)).length 0 lf rest).1.idxs ++
          (parseBin (toks.enum.map fun p => (p.1, p.2.str)).length 0 lf rest).2.map Prod.fst)
        (List.range toks.length) := by
      refine PB.trans ?_
      rw [hleaf]
      have : List.Sublist (AstTree.idxs (AstTree.leaf j) ++ rest.map Prod.fst)
          (((j, s) :: rest).map Prod.fst) := by
        simp [AstTree.idxs]
      refine this.trans ?_
      rw [← hts, enumStr_map_fst]
    have hsub : List.Sublist t.idxs (List.range toks.length) := by
      rw [← h]
      exact (List.sublist_append_left _ _).trans hall
    constructor
    · exact List.Nodup.sublist hsub (List.nodup_range _)
    · intro x hx
      have := hsub.subset hx
      rwa [List.mem_range] at this

theorem linkAt_defaultLinks (n i : Nat) :
    linkAt ((List.range n).map fun _ => ({} : AstLinks)) i = {} := by
  unfold linkAt
  rw [List.get?_eq_getElem?, List.getElem?_map]
  by_cases hi : i < n
  · rw [List.getElem?_range hi]
    rfl
  · have : (List.range n)[i]? = none := by
      rw [List.getElem?_eq_none]
      simpa using Nat.le_of_not_lt hi
    rw [this]
    rfl

theorem validateAst_defaultLinks (toks : List Token) :
    validateAst ⟨toks, (List.range toks.length).map fun _ => {}⟩ =
      Except.ok () := by
  unfold validateAst
  rw [if_pos]
  rw [List.all_eq_true]
  intro i _
  have hpar : ∀ j, parentOf ((List.range toks.length).map fun _ => ({} : AstLinks)) j = none := by
    intro j
    unfold parentOf
    rw [linkAt_defaultLinks]
  have hiter : ∀ k j, iterParent ((List.range toks.length).map fun _ => ({} : AstLinks)) (k + 1) j = none := by
    intro k j
    show (match parentOf _ j with
      | none => none
      | some p => iterParent _ k p) = none
    rw [hpar j]
  unfold nodeOk
  rw [linkAt_defaultLinks]
  show ((true && true && true) && _) = true
  rw [Bool.true_and, Bool.true_and, Bool.true_and]
  rw [show ((List.range toks.length).map fun _ => ({} : AstLinks)).length =
    toks.length from by simp]
  rw [hiter toks.length i]
  rfl

/-- C2: validateAst throws a fatal internal error (the Except error
channel, not a return value) whenever some node's AST child does not
reciprocally reference it as parent, some node is its own AST ancestor,
or some referenced AST node is not a member of the owning sequence; and
it completes without error on every sequence whose AST was built solely
by createAst. -/
theorem validateAst_spec :
    (∀ st : AstState, NonReciprocalChild st →
      validateAst st = Except.error "validateAst failed: AST broken") ∧
    (∀ st : AstState, OwnAstAncestor st →
      validateAst st = Except.error "validateAst failed: AST broken") ∧
    (∀ st : AstState, AstNonMember st →
      validateAst st = Except.error "validateAst failed: AST broken") ∧
    (∀ toks : List Token,
      validateAst ⟨toks, createAst toks⟩ = Except.ok ()) := by
  refine ⟨validateAst_error_of_nonReciprocal,
    validateAst_error_of_ownAncestor,
    validateAst_error_of_nonMember, ?_⟩
  intro toks
  unfold createAst
  cases hpe : parseExpr (toks.enum.map fun p => (p.1, p.2.str)) with
  | some t =>
    obtain ⟨hn, hb⟩ := parseExpr_tree_props toks t hpe
    exact validateAst_treeLinks toks t hn hb
  | none =>
    exact validateAst_defaultLinks toks
